import Mathlib

set_option maxHeartbeats 1000000

/-!
Verification development for an S3↔EFS file synchronizer running as a serverless
entry point.  The source consists of two procedures:

* `lambda_handler` (Download Sync): reads the bucket name and local root from the
  environment, ensures the root directory exists, lists the bucket once, and for
  each listed object downloads it to `os.path.join(root, key)` unless a local file
  already exists there with modification time ≥ the object's (naive) last-modified
  time.  Per-object failures are collected as error strings; the invocation returns
  a 200 response with counts and detail lists, a distinct 200 "No objects to sync"
  response when the listing has no `Contents`, and a 500 response with an error
  string and timestamp when configuration, root-directory creation or the listing
  call fails.

* `sync_efs_to_s3` (Upload Sync): walks the local tree, derives each file's key via
  `os.path.relpath` followed by replacing backslashes with forward slashes, consults
  `head_object` (where "no such key" means "upload"), skips when the local
  modification time is ≤ the remote one, and accumulates the uploaded keys.

The embedding models the POSIX path functions the source relies on
(`os.path.join`, `os.path.dirname`, `os.path.normpath`, `os.path.relpath`,
`str.split('/')`, `str.replace('\\', '/')`) at the level of character lists, and
models the environment, object store and filesystem as explicit world state.
Machine timestamps are naive datetimes, modelled as integers under the usual total
order.
-/

namespace SyncSpec

/-- Character-list view of Python strings; all path algorithms work on this. -/
abbrev Chars := List Char

/-- Python `s.split('/')`: splits into (possibly empty) pieces at every slash. -/
def splitChars : Chars → List Chars
  | [] => [[]]
  | c :: cs =>
    if c = '/' then [] :: splitChars cs
    else
      match splitChars cs with
      | [] => [[c]]
      | p :: ps => (c :: p) :: ps

/-- Python `'/'.join(pieces)`: interleaves a slash between the pieces. -/
def joinSlash : List Chars → Chars
  | [] => []
  | [p] => p
  | p :: q :: ps => p ++ '/' :: joinSlash (q :: ps)

/-- Leading-slash count used by `posixpath.normpath`: 2 for exactly two leading
slashes, 1 for one or at least three, 0 otherwise. -/
def initialSlashes (l : Chars) : Nat :=
  if l.head? = some '/' then
    if l.tail.head? = some '/' ∧ l.tail.tail.head? ≠ some '/' then 2 else 1
  else 0

/-- Component loop of `posixpath.normpath`: drops empty and `.` components and
resolves `..` against the accumulated prefix exactly as the CPython source does. -/
def normLoop (hasSlash : Bool) (acc : List Chars) : List Chars → List Chars
  | [] => acc
  | comp :: rest =>
    if comp = [] ∨ comp = ['.'] then normLoop hasSlash acc rest
    else if comp ≠ ['.', '.'] ∨ (hasSlash = false ∧ acc = []) ∨
        (acc ≠ [] ∧ acc.getLast? = some ['.', '.']) then
      normLoop hasSlash (acc ++ [comp]) rest
    else if acc ≠ [] then normLoop hasSlash acc.dropLast rest
    else normLoop hasSlash acc rest

/-- Model of `posixpath.normpath` on character lists. -/
def normpathChars (l : Chars) : Chars :=
  if l = [] then ['.']
  else
    let sl := initialSlashes l
    let nc := normLoop (sl != 0) [] (splitChars l)
    let out := List.replicate sl '/' ++ joinSlash nc
    if out = [] then ['.'] else out

/-- Model of the two-argument `posixpath.join` on character lists. -/
def pyJoinChars (a b : Chars) : Chars :=
  if b.head? = some '/' then b
  else if a = [] ∨ a.getLast? = some '/' then a ++ b
  else a ++ '/' :: b

/-- Model of `posixpath.dirname` on character lists: the prefix up to the last
slash, with trailing slashes stripped unless the prefix is all slashes. -/
def dirnameChars (p : Chars) : Chars :=
  let head := (p.reverse.dropWhile (fun c => c ≠ '/')).reverse
  if head ≠ [] ∧ head.any (fun c => c ≠ '/') then
    (head.reverse.dropWhile (fun c => c = '/')).reverse
  else head

/-- Model of `posixpath.abspath` relative to a current working directory. -/
def abspathChars (cwd l : Chars) : Chars :=
  if l.head? = some '/' then normpathChars l else normpathChars (pyJoinChars cwd l)

/-- Length of the longest common prefix of two component lists, as computed by
`os.path.commonprefix` on a pair of sequences. -/
def commonPrefixLenC : List Chars → List Chars → Nat
  | a :: xs, b :: ys => if a = b then commonPrefixLenC xs ys + 1 else 0
  | _, _ => 0

/-- Model of `posixpath.relpath path start` (both made absolute against `cwd`). -/
def relpathChars (cwd l start : Chars) : Chars :=
  let sa := abspathChars cwd start
  let pa := abspathChars cwd l
  let sl := (splitChars sa).filter (fun p => p ≠ [])
  let pl := (splitChars pa).filter (fun p => p ≠ [])
  let i := commonPrefixLenC sl pl
  let rel := List.replicate (sl.length - i) ['.', '.'] ++ pl.drop i
  if rel = [] then ['.'] else joinSlash rel

/-- String wrapper for `os.path.join(a, b)` as the source uses it. -/
def pyJoin (a b : String) : String := String.mk (pyJoinChars a.data b.data)

/-- String wrapper for `os.path.dirname`. -/
def dirname (s : String) : String := String.mk (dirnameChars s.data)

/-- String wrapper for `os.path.normpath`. -/
def normpath (s : String) : String := String.mk (normpathChars s.data)

/-- String wrapper for `os.path.relpath(p, start)` with an explicit cwd. -/
def relpath (cwd p start : String) : String :=
  String.mk (relpathChars cwd.data p.data start.data)

/-- Model of `s.replace('\\', '/')` from the upload key derivation. -/
def replaceBackslash (s : String) : String :=
  String.mk (s.data.map fun c => if c = '\\' then '/' else c)

/-- Key derivation of Upload Sync (source lines 117–118): relative path from the
root, with backslashes turned into forward slashes. -/
def s3KeyOf (cwd efsPath localPath : String) : String :=
  replaceBackslash (relpath cwd localPath efsPath)

/-- Local path used by Download Sync for a key (source line 49). -/
def downloadLocalPath (efsPath key : String) : String := pyJoin efsPath key

/-- Remote object as returned by the listing: key plus naive last-modified time. -/
structure S3Object where
  key : String
  lastModified : Int
deriving DecidableEq

/-- One `list_objects_v2` response: optional `Contents`, truncation flag and
continuation token.  The source reads only `Contents`. -/
structure ListResponse where
  contents : Option (List S3Object)
  isTruncated : Bool
  nextContinuationToken : Option String
deriving DecidableEq

/-- Local filesystem as a partial map from paths to modification times. -/
abbrev FS := String → Option Int

/-- World state an invocation of the handler runs against. -/
structure World where
  s3Bucket : Option String
  efsPath : Option String
  rootMkdirOk : Bool
  listing : Except String ListResponse
  morePages : List ListResponse
  fs0 : FS
  mkdirOk : String → Bool
  downloadOk : String → Bool
  downloadMtime : String → Int
  now : String

/-- Per-object outcome inside the download loop. -/
inductive Outcome where
  | downloaded : Outcome
  | skipped : Outcome
  | errored : String → Outcome
deriving DecidableEq

/-- Download decision (source lines 57–65): download when the local file is
absent, or when its modification time is strictly before the remote one. -/
def shouldDownload (fs : FS) (localPath : String) (remote : Int) : Bool :=
  match fs localPath with
  | none => true
  | some m => decide (m < remote)

/-- Per-object body of the download loop (source lines 47–75): ensure the parent
directory, decide staleness, download, and turn any failure into an error string
naming the key. -/
def processObject (w : World) (efsPath : String) (fs : FS) (obj : S3Object) :
    Outcome × FS :=
  let localPath := downloadLocalPath efsPath obj.key
  let localDir := dirname localPath
  if localDir ≠ "" ∧ w.mkdirOk localDir = false then
    (.errored ("Error syncing " ++ obj.key ++ ": mkdir failed"), fs)
  else if shouldDownload fs localPath obj.lastModified then
    if w.downloadOk obj.key then
      (.downloaded, fun p =>
        if p = localPath then some (w.downloadMtime localPath) else fs p)
    else
      (.errored ("Error syncing " ++ obj.key ++ ": download failed"), fs)
  else
    (.skipped, fs)

/-- The download loop over the listed objects, threading the filesystem. -/
def runLoop (w : World) (efsPath : String) : List S3Object → FS →
    List (S3Object × Outcome) × FS
  | [], fs => ([], fs)
  | obj :: rest, fs =>
    let r := processObject w efsPath fs obj
    let t := runLoop w efsPath rest r.2
    ((obj, r.1) :: t.1, t.2)

/-- The `synced_files` list the loop accumulates, read off the outcome trace. -/
def syncedFiles (tr : List (S3Object × Outcome)) : List String :=
  tr.filterMap fun x => match x.2 with | .downloaded => some x.1.key | _ => none

/-- The `errors` list the loop accumulates, read off the outcome trace. -/
def errorList (tr : List (S3Object × Outcome)) : List String :=
  tr.filterMap fun x => match x.2 with | .errored m => some m | _ => none

/-- Keys of the objects the loop skipped as already up to date. -/
def skippedFiles (tr : List (S3Object × Outcome)) : List String :=
  tr.filterMap fun x => match x.2 with | .skipped => some x.1.key | _ => none

/-- Serialized response body of the handler: the "No objects to sync" shape, the
"Sync completed" shape with counts and detail lists, or the top-level error shape. -/
inductive Body where
  | noObjectsBody (message timestamp : String)
  | completedBody (message : String) (downloadedFiles errorCount : Nat)
      (timestamp : String) (downloaded errorMsgs : List String)
  | errorBody (error timestamp : String)
deriving DecidableEq

/-- Handler return value: status code plus body. -/
structure Response where
  statusCode : Nat
  body : Body
deriving DecidableEq

/-- Model of `lambda_handler` (source lines 16–102), returning the response and the
final local filesystem.  Reading a missing environment variable, a failed root
`mkdir` and a failed listing call all raise before the loop and are caught by the
top-level handler, which returns status 500 with an error string and timestamp.
A listing without `Contents` short-circuits with the "No objects to sync" 200
response.  Otherwise the loop runs and a 200 "Sync completed" response carries
`len(synced_files)`, `len(errors)`, the timestamp and both detail lists. -/
def lambda_handler (w : World) : Response × FS :=
  match w.s3Bucket with
  | none => (⟨500, .errorBody "KeyError: S3_BUCKET" w.now⟩, w.fs0)
  | some _bucket =>
    match w.efsPath with
    | none => (⟨500, .errorBody "KeyError: EFS_PATH" w.now⟩, w.fs0)
    | some efsPath =>
      if w.rootMkdirOk = false then
        (⟨500, .errorBody "mkdir failed: root" w.now⟩, w.fs0)
      else
        match w.listing with
        | .error e => (⟨500, .errorBody e w.now⟩, w.fs0)
        | .ok resp =>
          match resp.contents with
          | none => (⟨200, .noObjectsBody "No objects to sync" w.now⟩, w.fs0)
          | some objs =>
            let r := runLoop w efsPath objs w.fs0
            let synced := syncedFiles r.1
            let errs := errorList r.1
            (⟨200, .completedBody "Sync completed" synced.length errs.length
                w.now synced errs⟩, r.2)

/-- Objects of one listing page (`Contents`, defaulting to no objects). -/
def pageObjects (r : ListResponse) : List S3Object := r.contents.getD []

/-- All objects in the bucket: the first page the code fetches plus every further
page a paginating client would fetch through the continuation token. -/
def listedAllObjects (w : World) : List S3Object :=
  (match w.listing with | .ok r => pageObjects r | .error _ => []) ++
    (w.morePages.flatMap pageObjects)

/-- Result of `head_object` for a key: metadata with a naive last-modified time,
the `NoSuchKey` outcome, or any other client failure. -/
inductive HeadResult where
  | found : Int → HeadResult
  | notFound : HeadResult
  | headFailed : String → HeadResult
deriving DecidableEq

/-- World state Upload Sync runs against: the walk enumeration, the metadata
query, local modification times and per-file upload success. -/
structure UploadWorld where
  cwd : String
  walk : List (String × List String)
  headObject : String → HeadResult
  mtime : String → Option Int
  uploadOk : String → Bool

/-- Per-file body of the upload loop (source lines 113–142): derive the key,
consult `head_object` (where `NoSuchKey` means "upload"), skip when the local
modification time is ≤ the remote one, and return the uploaded key if any.
Any other failure is logged and yields nothing. -/
def fileOutcome (uw : UploadWorld) (efsPath dirpath fname : String) :
    Option String :=
  let localPath := pyJoin dirpath fname
  let key := s3KeyOf uw.cwd efsPath localPath
  match uw.headObject key with
  | .found s3m =>
    match uw.mtime localPath with
    | none => none
    | some lm =>
      if lm ≤ s3m then none
      else if uw.uploadOk localPath then some key else none
  | .notFound => if uw.uploadOk localPath then some key else none
  | .headFailed _ => none

/-- Inner loop of Upload Sync over the files of one directory. -/
def uploadFiles (uw : UploadWorld) (efsPath dirpath : String) :
    List String → List String
  | [] => []
  | f :: rest =>
    match fileOutcome uw efsPath dirpath f with
    | some k => k :: uploadFiles uw efsPath dirpath rest
    | none => uploadFiles uw efsPath dirpath rest

/-- Outer loop of Upload Sync over the directories `os.walk` yields. -/
def walkDirs (uw : UploadWorld) (efsPath : String) :
    List (String × List String) → List String
  | [] => []
  | d :: rest => uploadFiles uw efsPath d.1 d.2 ++ walkDirs uw efsPath rest

/-- Model of `sync_efs_to_s3` (source lines 104–147): the accumulated list of
uploaded keys. -/
def sync_efs_to_s3 (uw : UploadWorld) (efsPath : String) : List String :=
  walkDirs uw efsPath uw.walk

example : relpath "/" "/mnt/efs/a//b.txt" "/mnt/efs" = "a/b.txt" := by decide

example : pyJoin "/mnt/efs" "a/b.txt" = "/mnt/efs/a/b.txt" := by decide

example : dirname "/mnt/efs/a/b.txt" = "/mnt/efs/a" := by decide

example : normpath "/mnt//a/./b/../c" = "/mnt/a/c" := by decide

/-- Concrete world with one object and a fully permissive environment. -/
def wBase : World :=
  ⟨some "bucket", some "/mnt/efs", true,
    .ok ⟨some [⟨"a.txt", 5⟩], false, none⟩, [],
    fun _ => none, fun _ => true, fun _ => true, fun _ => 10, "ts"⟩

/-- Equation lemma exposing the branch structure of `processObject`. -/
theorem processObject_eq (w : World) (efsPath : String) (fs : FS)
    (obj : S3Object) :
    processObject w efsPath fs obj =
      if dirname (downloadLocalPath efsPath obj.key) ≠ "" ∧
          w.mkdirOk (dirname (downloadLocalPath efsPath obj.key)) = false then
        (.errored ("Error syncing " ++ obj.key ++ ": mkdir failed"), fs)
      else if shouldDownload fs (downloadLocalPath efsPath obj.key)
          obj.lastModified then
        if w.downloadOk obj.key then
          (.downloaded, fun p =>
            if p = downloadLocalPath efsPath obj.key then
              some (w.downloadMtime (downloadLocalPath efsPath obj.key))
            else fs p)
        else
          (.errored ("Error syncing " ++ obj.key ++ ": download failed"), fs)
      else (.skipped, fs) := rfl

/-- Download decision in the absent case. -/
theorem shouldDownload_none (fs : FS) (p : String) (t : Int) (h : fs p = none) :
    shouldDownload fs p t = true := by
  unfold shouldDownload
  rw [h]

/-- Download decision in the present case follows the timestamp comparison. -/
theorem shouldDownload_some (fs : FS) (p : String) (t m : Int)
    (h : fs p = some m) : shouldDownload fs p t = decide (m < t) := by
  unfold shouldDownload
  rw [h]

/-- C1: Download Sync downloads an object if and only if the local file at the
mapped path is absent, or its modification time is strictly before the object's
last-modified time; when the local time is equal or later the object is skipped
(the equal boundary counts as up to date). -/
theorem download_iff_absent_or_stale (w : World) (efsPath : String) (fs : FS)
    (obj : S3Object)
    (hmk : w.mkdirOk (dirname (downloadLocalPath efsPath obj.key)) = true)
    (hdl : w.downloadOk obj.key = true) :
    ((processObject w efsPath fs obj).1 = .downloaded ↔
      (fs (downloadLocalPath efsPath obj.key) = none ∨
        ∃ m, fs (downloadLocalPath efsPath obj.key) = some m ∧
          m < obj.lastModified)) ∧
    ((processObject w efsPath fs obj).1 = .skipped ↔
      ∃ m, fs (downloadLocalPath efsPath obj.key) = some m ∧
        obj.lastModified ≤ m) := by
  have hg : ¬ (dirname (downloadLocalPath efsPath obj.key) ≠ "" ∧
      w.mkdirOk (dirname (downloadLocalPath efsPath obj.key)) = false) := by
    rintro ⟨-, h2⟩
    rw [hmk] at h2
    simp at h2
  rw [processObject_eq, if_neg hg]
  cases h : fs (downloadLocalPath efsPath obj.key) with
  | none =>
    rw [shouldDownload_none _ _ _ h, if_pos rfl, hdl, if_pos rfl]
    exact ⟨by simp, by simp⟩
  | some m =>
    rw [shouldDownload_some _ _ _ _ h]
    by_cases hm : m < obj.lastModified
    · rw [if_pos (decide_eq_true hm), hdl, if_pos rfl]
      constructor
      · simp [hm]
      · simp
        omega
    · rw [if_neg (by simpa using hm)]
      constructor
      · simp [hm]
      · simp
        omega

/-- Witness for C1 at a concrete world: the only object is absent locally and is
downloaded. -/
theorem download_iff_absent_or_stale_witness :
    wBase.mkdirOk (dirname (downloadLocalPath "/mnt/efs" "a.txt")) = true ∧
    wBase.downloadOk "a.txt" = true ∧
    (((processObject wBase "/mnt/efs" wBase.fs0 ⟨"a.txt", 5⟩).1 = .downloaded ↔
      (wBase.fs0 (downloadLocalPath "/mnt/efs" "a.txt") = none ∨
        ∃ m, wBase.fs0 (downloadLocalPath "/mnt/efs" "a.txt") = some m ∧
          m < (5 : Int))) ∧
    ((processObject wBase "/mnt/efs" wBase.fs0 ⟨"a.txt", 5⟩).1 = .skipped ↔
      ∃ m, wBase.fs0 (downloadLocalPath "/mnt/efs" "a.txt") = some m ∧
        (5 : Int) ≤ m)) :=
  ⟨rfl, rfl,
    download_iff_absent_or_stale wBase "/mnt/efs" wBase.fs0 ⟨"a.txt", 5⟩ rfl rfl⟩

/-- C3: missing configuration, a failed listing call, or a failed root directory
creation aborts before any per-object transfer, returning status 500 with a body
holding an error string and a timestamp, and leaving the filesystem untouched. -/
theorem top_level_abort (w : World)
    (h : w.s3Bucket = none ∨ w.efsPath = none ∨ w.rootMkdirOk = false ∨
      ∃ e, w.listing = .error e) :
    (lambda_handler w).1.statusCode = 500 ∧
    (∃ msg, (lambda_handler w).1.body = .errorBody msg w.now) ∧
    (lambda_handler w).2 = w.fs0 := by
  obtain ⟨sb, ep, rmk, lst, mp, f0, mk, dl, dm, nw⟩ := w
  simp only at h
  rcases h with h | h | h | ⟨e, h⟩
  · subst h
    exact ⟨rfl, ⟨_, rfl⟩, rfl⟩
  · subst h
    cases sb with
    | none => exact ⟨rfl, ⟨_, rfl⟩, rfl⟩
    | some b => exact ⟨rfl, ⟨_, rfl⟩, rfl⟩
  · subst h
    cases sb with
    | none => exact ⟨rfl, ⟨_, rfl⟩, rfl⟩
    | some b =>
      cases ep with
      | none => exact ⟨rfl, ⟨_, rfl⟩, rfl⟩
      | some efs => exact ⟨rfl, ⟨_, rfl⟩, rfl⟩
  · subst h
    cases sb with
    | none => exact ⟨rfl, ⟨_, rfl⟩, rfl⟩
    | some b =>
      cases ep with
      | none => exact ⟨rfl, ⟨_, rfl⟩, rfl⟩
      | some efs =>
        cases rmk with
        | false => exact ⟨rfl, ⟨_, rfl⟩, rfl⟩
        | true => exact ⟨rfl, ⟨_, rfl⟩, rfl⟩

/-- Concrete world with no bucket configured. -/
def wNoBucket : World :=
  ⟨none, some "/mnt/efs", true, .ok ⟨none, false, none⟩, [],
    fun _ => none, fun _ => true, fun _ => true, fun _ => 10, "ts"⟩

/-- Witness for C3: a world with no bucket configured aborts with 500. -/
theorem top_level_abort_witness :
    (wNoBucket.s3Bucket = none ∨ wNoBucket.efsPath = none ∨
      wNoBucket.rootMkdirOk = false ∨ ∃ e, wNoBucket.listing = .error e) ∧
    ((lambda_handler wNoBucket).1.statusCode = 500 ∧
      (∃ msg, (lambda_handler wNoBucket).1.body = .errorBody msg wNoBucket.now) ∧
      (lambda_handler wNoBucket).2 = wNoBucket.fs0) :=
  ⟨Or.inl rfl, top_level_abort wNoBucket (Or.inl rfl)⟩

/-- C4: a listing with no `Contents` short-circuits with the distinct
"No objects to sync" 200 response, leaving the filesystem untouched. -/
theorem empty_listing_short_circuit (w : World) (b efs : String)
    (resp : ListResponse)
    (hb : w.s3Bucket = some b) (he : w.efsPath = some efs)
    (hr : w.rootMkdirOk = true) (hl : w.listing = .ok resp)
    (hc : resp.contents = none) :
    lambda_handler w = (⟨200, .noObjectsBody "No objects to sync" w.now⟩, w.fs0) := by
  simp [lambda_handler, hb, he, hr, hl, hc]

/-- Concrete world whose listing carries no `Contents`. -/
def wEmpty : World :=
  ⟨some "bucket", some "/mnt/efs", true, .ok ⟨none, false, none⟩, [],
    fun _ => none, fun _ => true, fun _ => true, fun _ => 10, "ts"⟩

/-- Witness for C4 at a concrete empty-bucket world. -/
theorem empty_listing_short_circuit_witness :
    wEmpty.s3Bucket = some "bucket" ∧ wEmpty.efsPath = some "/mnt/efs" ∧
    wEmpty.rootMkdirOk = true ∧ wEmpty.listing = .ok ⟨none, false, none⟩ ∧
    lambda_handler wEmpty =
      (⟨200, .noObjectsBody "No objects to sync" wEmpty.now⟩, wEmpty.fs0) :=
  ⟨rfl, rfl, rfl, rfl,
    empty_listing_short_circuit wEmpty "bucket" "/mnt/efs" ⟨none, false, none⟩
      rfl rfl rfl rfl rfl⟩

/-- Concrete world whose listing is truncated with a continuation token and one
more page containing the object `"b"`. -/
def wPages : World :=
  ⟨some "bucket", some "/mnt/efs", true,
    .ok ⟨some [⟨"a", 5⟩], true, some "token"⟩,
    [⟨some [⟨"b", 5⟩], false, none⟩],
    fun _ => none, fun _ => true, fun _ => true, fun _ => 10, "ts"⟩

/-- Counterexample to C5: the bucket holds `"b"` on a second page, the second page
object is absent locally, yet the handler downloads only `"a"` and never
materializes `"b"`. -/
theorem pagination_counterexample :
    "b" ∈ (listedAllObjects wPages).map S3Object.key ∧
    (lambda_handler wPages).1 =
      ⟨200, .completedBody "Sync completed" 1 0 "ts" ["a"] []⟩ ∧
    (lambda_handler wPages).2 (downloadLocalPath "/mnt/efs" "b") = none := by
  refine ⟨by decide, by decide, by decide⟩

/-- Helper: the per-object step only reads the capability fields of the world. -/
theorem processObject_capabilities (w w' : World)
    (hmk : w.mkdirOk = w'.mkdirOk) (hdl : w.downloadOk = w'.downloadOk)
    (hdm : w.downloadMtime = w'.downloadMtime) :
    processObject w = processObject w' := by
  funext efs fs obj
  unfold processObject
  rw [hmk, hdl, hdm]

/-- Helper: the download loop only reads the capability fields of the world. -/
theorem runLoop_capabilities (w w' : World)
    (hmk : w.mkdirOk = w'.mkdirOk) (hdl : w.downloadOk = w'.downloadOk)
    (hdm : w.downloadMtime = w'.downloadMtime) (efs : String) :
    ∀ (objs : List S3Object) (fs : FS),
      runLoop w efs objs fs = runLoop w' efs objs fs := by
  intro objs
  induction objs with
  | nil => intro fs; rfl
  | cons o rest ih =>
    intro fs
    unfold runLoop
    rw [show processObject w = processObject w' from
      processObject_capabilities w w' hmk hdl hdm]
    simp only [ih]

/-- C5 amended: the handler issues a single listing call; pages past the first
(reachable through the continuation token) never affect the result. -/
theorem first_page_only (w : World) (pages : List ListResponse) :
    lambda_handler { w with morePages := pages } = lambda_handler w := by
  have hrl : runLoop { w with morePages := pages } = runLoop w := by
    funext efs objs fs
    exact runLoop_capabilities { w with morePages := pages } w rfl rfl rfl
      efs objs fs
  unfold lambda_handler
  rw [hrl]

/-- Helper: a file whose outcome is an upload contributes its key to the inner
loop's list. -/
theorem mem_uploadFiles (uw : UploadWorld) (efs d : String) :
    ∀ (files : List String) (f : String), f ∈ files → ∀ k,
      fileOutcome uw efs d f = some k → k ∈ uploadFiles uw efs d files := by
  intro files
  induction files with
  | nil =>
    intro f hf
    cases hf
  | cons g gs ih =>
    intro f hf k hout
    rcases List.mem_cons.mp hf with h | h
    · subst h
      simp [uploadFiles, hout]
    · have hmem := ih f h k hout
      unfold uploadFiles
      cases hg : fileOutcome uw efs d g with
      | none => exact hmem
      | some k' => exact List.mem_cons_of_mem _ hmem

/-- Helper: a file whose outcome is an upload contributes its key to the walk's
accumulated list. -/
theorem mem_walkDirs (uw : UploadWorld) (efs : String) :
    ∀ (walk : List (String × List String)) (d : String) (files : List String),
      (d, files) ∈ walk → ∀ f ∈ files, ∀ k, fileOutcome uw efs d f = some k →
        k ∈ walkDirs uw efs walk := by
  intro walk
  induction walk with
  | nil =>
    intro d files hd
    cases hd
  | cons p tl ih =>
    intro d files hd f hf k hout
    rcases List.mem_cons.mp hd with h | h
    · subst h
      exact List.mem_append_left _ (mem_uploadFiles uw efs d files f hf k hout)
    · exact List.mem_append_right _ (ih d files h f hf k hout)

/-- C7: a `NoSuchKey` answer from the metadata query is the normal path, not a
per-file error: the file is uploaded and its key lands in the returned list. -/
theorem notfound_uploads (uw : UploadWorld) (efs d f : String)
    (files : List String)
    (hd : (d, files) ∈ uw.walk) (hf : f ∈ files)
    (hh : uw.headObject (s3KeyOf uw.cwd efs (pyJoin d f)) = .notFound)
    (hup : uw.uploadOk (pyJoin d f) = true) :
    fileOutcome uw efs d f = some (s3KeyOf uw.cwd efs (pyJoin d f)) ∧
    s3KeyOf uw.cwd efs (pyJoin d f) ∈ sync_efs_to_s3 uw efs := by
  have h1 : fileOutcome uw efs d f = some (s3KeyOf uw.cwd efs (pyJoin d f)) := by
    simp [fileOutcome, hh, hup]
  exact ⟨h1, mem_walkDirs uw efs uw.walk d files hd f hf _ h1⟩

/-- Concrete upload world: one directory with one file, remote metadata absent. -/
def uwBase : UploadWorld :=
  ⟨"/", [("/mnt/efs/docs", ["x.txt"])],
    fun _ => .notFound, fun _ => some 3, fun _ => true⟩

/-- Witness for C7 at a concrete upload world. -/
theorem notfound_uploads_witness :
    ("/mnt/efs/docs", ["x.txt"]) ∈ uwBase.walk ∧ "x.txt" ∈ ["x.txt"] ∧
    uwBase.headObject
      (s3KeyOf uwBase.cwd "/mnt/efs" (pyJoin "/mnt/efs/docs" "x.txt")) =
        .notFound ∧
    uwBase.uploadOk (pyJoin "/mnt/efs/docs" "x.txt") = true ∧
    (fileOutcome uwBase "/mnt/efs" "/mnt/efs/docs" "x.txt" =
      some (s3KeyOf uwBase.cwd "/mnt/efs" (pyJoin "/mnt/efs/docs" "x.txt")) ∧
    s3KeyOf uwBase.cwd "/mnt/efs" (pyJoin "/mnt/efs/docs" "x.txt") ∈
      sync_efs_to_s3 uwBase "/mnt/efs") :=
  ⟨by decide, by decide, rfl, rfl,
    notfound_uploads uwBase "/mnt/efs" "/mnt/efs/docs" "x.txt" ["x.txt"]
      (by decide) (by decide) rfl rfl⟩

/-- C8: when remote metadata exists, the file is skipped exactly when the local
modification time is ≤ the remote last-modified time, and uploaded exactly when
the local time is strictly later (the equal boundary counts as skip). -/
theorem upload_skip_boundary (uw : UploadWorld) (efs d f : String) (rm lm : Int)
    (hh : uw.headObject (s3KeyOf uw.cwd efs (pyJoin d f)) = .found rm)
    (hm : uw.mtime (pyJoin d f) = some lm)
    (hup : uw.uploadOk (pyJoin d f) = true) :
    (fileOutcome uw efs d f = none ↔ lm ≤ rm) ∧
    (fileOutcome uw efs d f = some (s3KeyOf uw.cwd efs (pyJoin d f)) ↔ rm < lm) := by
  have e1 : fileOutcome uw efs d f =
      if lm ≤ rm then none else some (s3KeyOf uw.cwd efs (pyJoin d f)) := by
    simp [fileOutcome, hh, hm, hup]
  rw [e1]
  by_cases h : lm ≤ rm
  · rw [if_pos h]
    constructor
    · simp [h]
    · constructor
      · intro hcon
        exact Option.noConfusion hcon
      · intro hcon
        omega
  · rw [if_neg h]
    constructor
    · constructor
      · intro hcon
        exact Option.noConfusion hcon
      · intro hcon
        exact absurd hcon h
    · constructor
      · intro
        omega
      · intro
        rfl

/-- Concrete upload world: metadata exists with remote time 5, local time 5. -/
def uwEq : UploadWorld :=
  ⟨"/", [("/mnt/efs/docs", ["x.txt"])],
    fun _ => .found 5, fun _ => some 5, fun _ => true⟩

/-- Witness for C8 at the equal boundary: the file is skipped. -/
theorem upload_skip_boundary_witness :
    uwEq.headObject
      (s3KeyOf uwEq.cwd "/mnt/efs" (pyJoin "/mnt/efs/docs" "x.txt")) =
        .found 5 ∧
    uwEq.mtime (pyJoin "/mnt/efs/docs" "x.txt") = some 5 ∧
    uwEq.uploadOk (pyJoin "/mnt/efs/docs" "x.txt") = true ∧
    ((fileOutcome uwEq "/mnt/efs" "/mnt/efs/docs" "x.txt" = none ↔ (5 : Int) ≤ 5) ∧
    (fileOutcome uwEq "/mnt/efs" "/mnt/efs/docs" "x.txt" =
      some (s3KeyOf uwEq.cwd "/mnt/efs" (pyJoin "/mnt/efs/docs" "x.txt")) ↔
        (5 : Int) < 5)) :=
  ⟨rfl, rfl, rfl,
    upload_skip_boundary uwEq "/mnt/efs" "/mnt/efs/docs" "x.txt" 5 5 rfl rfl rfl⟩

/-- Helper: the download loop visits exactly the listed objects, in order. -/
theorem runLoop_fst (w : World) (efs : String) :
    ∀ (objs : List S3Object) (fs : FS),
      ((runLoop w efs objs fs).1).map Prod.fst = objs := by
  intro objs
  induction objs with
  | nil =>
    intro fs
    rfl
  | cons o rest ih =>
    intro fs
    simp only [runLoop]
    simp [ih]

/-- Helper: every trace entry lands in exactly one of the three outcome lists. -/
theorem trace_partition :
    ∀ tr : List (S3Object × Outcome),
      (syncedFiles tr).length + (errorList tr).length +
        (skippedFiles tr).length = tr.length := by
  intro tr
  induction tr with
  | nil => rfl
  | cons x rest ih =>
    cases hx : x.2 with
    | downloaded =>
      simp only [syncedFiles, errorList, skippedFiles, List.filterMap_cons,
        hx] at ih ⊢
      simp only [List.length_cons]
      omega
    | skipped =>
      simp only [syncedFiles, errorList, skippedFiles, List.filterMap_cons,
        hx] at ih ⊢
      simp only [List.length_cons]
      omega
    | errored m =>
      simp only [syncedFiles, errorList, skippedFiles, List.filterMap_cons,
        hx] at ih ⊢
      simp only [List.length_cons]
      omega

/-- Helper: every downloaded key names one of the visited objects. -/
theorem mem_syncedFiles :
    ∀ (tr : List (S3Object × Outcome)) (k : String), k ∈ syncedFiles tr →
      k ∈ tr.map fun x => x.1.key := by
  intro tr
  induction tr with
  | nil =>
    intro k hk
    cases hk
  | cons x rest ih =>
    intro k hk
    cases hx : x.2 with
    | downloaded =>
      simp only [syncedFiles, List.filterMap_cons, hx] at hk
      rcases List.mem_cons.mp hk with h | h
      · simp [h]
      · simp only [List.map_cons]
        exact List.mem_cons_of_mem _ (ih k h)
    | skipped =>
      simp only [syncedFiles, List.filterMap_cons, hx] at hk
      simp only [List.map_cons]
      exact List.mem_cons_of_mem _ (ih k hk)
    | errored m =>
      simp only [syncedFiles, List.filterMap_cons, hx] at hk
      simp only [List.map_cons]
      exact List.mem_cons_of_mem _ (ih k hk)

/-- Helper: shape of the handler's return value on the completed path. -/
theorem lambda_handler_completed (w : World) (b efs : String)
    (resp : ListResponse) (objs : List S3Object)
    (hb : w.s3Bucket = some b) (he : w.efsPath = some efs)
    (hr : w.rootMkdirOk = true) (hl : w.listing = .ok resp)
    (hc : resp.contents = some objs) :
    lambda_handler w = (⟨200, .completedBody "Sync completed"
      (syncedFiles (runLoop w efs objs w.fs0).1).length
      (errorList (runLoop w efs objs w.fs0).1).length w.now
      (syncedFiles (runLoop w efs objs w.fs0).1)
      (errorList (runLoop w efs objs w.fs0).1)⟩,
      (runLoop w efs objs w.fs0).2) := by
  simp [lambda_handler, hb, he, hr, hl, hc]

/-- C10: every 200 "Sync completed" result is internally consistent: the
downloaded count is the length of the downloaded list, the error count is the
length of the error list, every downloaded key comes from the listing, and each
listed object contributes to exactly one of the three outcomes. -/
theorem completed_body_consistent (w : World) (b efs : String)
    (resp : ListResponse) (objs : List S3Object)
    (hb : w.s3Bucket = some b) (he : w.efsPath = some efs)
    (hr : w.rootMkdirOk = true) (hl : w.listing = .ok resp)
    (hc : resp.contents = some objs) :
    (lambda_handler w).1 = ⟨200, .completedBody "Sync completed"
        (syncedFiles (runLoop w efs objs w.fs0).1).length
        (errorList (runLoop w efs objs w.fs0).1).length w.now
        (syncedFiles (runLoop w efs objs w.fs0).1)
        (errorList (runLoop w efs objs w.fs0).1)⟩ ∧
    (∀ k ∈ syncedFiles (runLoop w efs objs w.fs0).1, k ∈ objs.map S3Object.key) ∧
    (syncedFiles (runLoop w efs objs w.fs0).1).length +
      (errorList (runLoop w efs objs w.fs0).1).length +
      (skippedFiles (runLoop w efs objs w.fs0).1).length = objs.length := by
  refine ⟨?_, ?_, ?_⟩
  · exact congrArg Prod.fst
      (lambda_handler_completed w b efs resp objs hb he hr hl hc)
  · intro k hk
    have h1 := mem_syncedFiles (runLoop w efs objs w.fs0).1 k hk
    have h2 : ((runLoop w efs objs w.fs0).1).map (fun x => x.1.key) =
        objs.map S3Object.key := by
      rw [show (fun x : S3Object × Outcome => x.1.key) =
        (S3Object.key ∘ Prod.fst) from rfl, ← List.map_map, runLoop_fst]
    rwa [h2] at h1
  · have h3 : objs.length = (runLoop w efs objs w.fs0).1.length := by
      conv_lhs => rw [← runLoop_fst w efs objs w.fs0]
      rw [List.length_map]
    rw [h3]
    exact trace_partition _

/-- Witness for C10 at a concrete one-object world. -/
theorem completed_body_consistent_witness :
    wBase.s3Bucket = some "bucket" ∧ wBase.efsPath = some "/mnt/efs" ∧
    wBase.rootMkdirOk = true ∧
    wBase.listing = .ok ⟨some [⟨"a.txt", 5⟩], false, none⟩ ∧
    ((lambda_handler wBase).1 = ⟨200, .completedBody "Sync completed"
        (syncedFiles (runLoop wBase "/mnt/efs" [⟨"a.txt", 5⟩] wBase.fs0).1).length
        (errorList (runLoop wBase "/mnt/efs" [⟨"a.txt", 5⟩] wBase.fs0).1).length
        wBase.now
        (syncedFiles (runLoop wBase "/mnt/efs" [⟨"a.txt", 5⟩] wBase.fs0).1)
        (errorList (runLoop wBase "/mnt/efs" [⟨"a.txt", 5⟩] wBase.fs0).1)⟩ ∧
    (∀ k ∈ syncedFiles (runLoop wBase "/mnt/efs" [⟨"a.txt", 5⟩] wBase.fs0).1,
      k ∈ [S3Object.mk "a.txt" 5].map S3Object.key) ∧
    (syncedFiles (runLoop wBase "/mnt/efs" [⟨"a.txt", 5⟩] wBase.fs0).1).length +
      (errorList (runLoop wBase "/mnt/efs" [⟨"a.txt", 5⟩] wBase.fs0).1).length +
      (skippedFiles (runLoop wBase "/mnt/efs" [⟨"a.txt", 5⟩] wBase.fs0).1).length
        = [S3Object.mk "a.txt" 5].length) :=
  ⟨rfl, rfl, rfl, rfl,
    completed_body_consistent wBase "bucket" "/mnt/efs"
      ⟨some [⟨"a.txt", 5⟩], false, none⟩ [⟨"a.txt", 5⟩] rfl rfl rfl rfl rfl⟩

/-- Helper: joining a fixed root with keys that do not start with a slash is
injective in the key. -/
theorem pyJoinChars_inj (a b₁ b₂ : Chars)
    (h1 : b₁.head? ≠ some '/') (h2 : b₂.head? ≠ some '/')
    (h : pyJoinChars a b₁ = pyJoinChars a b₂) : b₁ = b₂ := by
  unfold pyJoinChars at h
  rw [if_neg h1, if_neg h2] at h
  by_cases ha : a = [] ∨ a.getLast? = some '/'
  · rw [if_pos ha, if_pos ha] at h
    exact List.append_cancel_left h
  · rw [if_neg ha, if_neg ha] at h
    have h3 := List.append_cancel_left h
    simpa using h3

/-- Helper: string-level injectivity of the key-to-path mapping for keys without
a leading slash. -/
theorem pyJoin_inj (a k₁ k₂ : String)
    (h1 : k₁.data.head? ≠ some '/') (h2 : k₂.data.head? ≠ some '/')
    (h : pyJoin a k₁ = pyJoin a k₂) : k₁ = k₂ := by
  have hd : pyJoinChars a.data k₁.data = pyJoinChars a.data k₂.data := by
    have hdat := congrArg String.data h
    simpa [pyJoin] using hdat
  have hk := pyJoinChars_inj a.data k₁.data k₂.data h1 h2 hd
  exact congrArg String.mk hk

/-- Outcome trace of a run in which every object is locally absent: each object
downloads or errors according to its own download success. -/
def freshTrace (w : World) (objs : List S3Object) : List (S3Object × Outcome) :=
  objs.map fun o =>
    (o, if w.downloadOk o.key then Outcome.downloaded
      else Outcome.errored ("Error syncing " ++ o.key ++ ": download failed"))

/-- Helper: with permissive directory creation and all listed objects locally
absent at pairwise-distinct paths, the loop produces the fresh trace. -/
theorem runLoop_fresh (w : World) (efs : String)
    (hmk : ∀ dr, w.mkdirOk dr = true) :
    ∀ (objs : List S3Object) (fs : FS),
      (∀ o ∈ objs, fs (downloadLocalPath efs o.key) = none) →
      (objs.map fun o => downloadLocalPath efs o.key).Nodup →
      (runLoop w efs objs fs).1 = freshTrace w objs := by
  intro objs
  induction objs with
  | nil =>
    intro fs _ _
    rfl
  | cons o rest ih =>
    intro fs hfresh hnd
    have hg : ¬ (dirname (downloadLocalPath efs o.key) ≠ "" ∧
        w.mkdirOk (dirname (downloadLocalPath efs o.key)) = false) := by
      rintro ⟨-, hcon⟩
      rw [hmk] at hcon
      simp at hcon
    have hsd := shouldDownload_none fs (downloadLocalPath efs o.key)
      o.lastModified (hfresh o (List.mem_cons_self o rest))
    rw [List.map_cons, List.nodup_cons] at hnd
    simp only [runLoop]
    rw [processObject_eq, if_neg hg, hsd, if_pos rfl]
    cases hdl : w.downloadOk o.key with
    | true =>
      rw [if_pos rfl]
      have hfresh' : ∀ o' ∈ rest,
          (fun p => if p = downloadLocalPath efs o.key then
            some (w.downloadMtime (downloadLocalPath efs o.key))
          else fs p) (downloadLocalPath efs o'.key) = none := by
        intro o' ho'
        have hne : downloadLocalPath efs o'.key ≠ downloadLocalPath efs o.key := by
          intro hcon
          exact hnd.1 (hcon ▸ List.mem_map_of_mem
            (fun o => downloadLocalPath efs o.key) ho')
        simp only [if_neg hne]
        exact hfresh o' (List.mem_cons_of_mem _ ho')
      rw [ih _ hfresh' hnd.2]
      simp [freshTrace, hdl]
    | false =>
      rw [if_neg (by simp)]
      rw [ih fs (fun o' ho' => hfresh o' (List.mem_cons_of_mem _ ho')) hnd.2]
      simp [freshTrace, hdl]

/-- Helper: when every visited object downloads, the synced list is all keys and
the error list is empty. -/
theorem freshTrace_all_ok (w : World) :
    ∀ objs : List S3Object, (∀ o ∈ objs, w.downloadOk o.key = true) →
      syncedFiles (freshTrace w objs) = objs.map S3Object.key ∧
      errorList (freshTrace w objs) = [] := by
  intro objs
  induction objs with
  | nil => exact fun _ => ⟨rfl, rfl⟩
  | cons o rest ih =>
    intro hall
    have hdl := hall o (List.mem_cons_self o rest)
    have ihr := ih fun o' ho' => hall o' (List.mem_cons_of_mem _ ho')
    constructor
    · simp only [freshTrace, List.map_cons, syncedFiles,
        List.filterMap_cons, hdl, if_true]
      simp only [freshTrace, syncedFiles] at ihr
      rw [ihr.1]
    · simp only [freshTrace, List.map_cons, errorList,
        List.filterMap_cons, hdl, if_true]
      simp only [freshTrace, errorList] at ihr
      rw [ihr.2]

/-- Helper: with exactly one failing key present among pairwise-distinct keys,
the synced list is every other key in order and the error list is the single
message naming the failing key. -/
theorem freshTrace_single_fail (w : World) (Mkey : String)
    (hdlM : w.downloadOk Mkey = false)
    (hdl : ∀ k, k ≠ Mkey → w.downloadOk k = true) :
    ∀ objs : List S3Object, (objs.map S3Object.key).Nodup →
      Mkey ∈ objs.map S3Object.key →
      syncedFiles (freshTrace w objs) =
        (objs.map S3Object.key).filter (fun k => k ≠ Mkey) ∧
      errorList (freshTrace w objs) =
        ["Error syncing " ++ Mkey ++ ": download failed"] := by
  intro objs
  induction objs with
  | nil =>
    intro _ hmem
    cases hmem
  | cons o rest ih =>
    intro hnd hmem
    rw [List.map_cons, List.nodup_cons] at hnd
    by_cases ho : o.key = Mkey
    · have hrest : ∀ o' ∈ rest, w.downloadOk o'.key = true := by
        intro o' ho'
        apply hdl
        intro hcon
        exact hnd.1 (ho ▸ hcon ▸ List.mem_map_of_mem S3Object.key ho')
      have hall := freshTrace_all_ok w rest hrest
      have hfilter : (rest.map S3Object.key).filter (fun k => k ≠ Mkey) =
          rest.map S3Object.key := by
        apply List.filter_eq_self.mpr
        intro k hk
        apply decide_eq_true
        intro hcon
        exact hnd.1 (ho ▸ hcon ▸ hk)
      constructor
      · simp only [freshTrace, List.map_cons, syncedFiles,
          List.filterMap_cons, ho, hdlM, List.filter_cons]
        simp only [freshTrace, syncedFiles] at hall
        rw [if_neg (by simp), hall.1, hfilter]
        simp
      · simp only [freshTrace, List.map_cons, errorList,
          List.filterMap_cons, ho, hdlM]
        simp only [freshTrace, errorList] at hall
        rw [if_neg (by simp)]
        simp [hall.2]
    · have hdlo : w.downloadOk o.key = true := hdl o.key ho
      have hmem' : Mkey ∈ rest.map S3Object.key := by
        rcases List.mem_cons.mp hmem with h | h
        · exact absurd h.symm ho
        · exact h
      have ihr := ih hnd.2 hmem'
      constructor
      · simp only [freshTrace, List.map_cons, syncedFiles,
          List.filterMap_cons, hdlo, if_true, List.filter_cons]
        simp only [freshTrace, syncedFiles] at ihr
        rw [if_pos (decide_eq_true ho), ihr.1]
      · simp only [freshTrace, List.map_cons, errorList,
          List.filterMap_cons, hdlo, if_true]
        simp only [freshTrace, errorList] at ihr
        exact ihr.2

/-- C2: when exactly one listed object fails during per-object processing, all
other objects are still processed and downloaded, exactly one error message
naming the failing key is recorded, and the invocation still returns 200. -/
theorem single_failure_isolated (w : World) (b efs : String)
    (resp : ListResponse) (objs : List S3Object) (M : S3Object)
    (hb : w.s3Bucket = some b) (he : w.efsPath = some efs)
    (hr : w.rootMkdirOk = true) (hl : w.listing = .ok resp)
    (hc : resp.contents = some objs)
    (hfs : ∀ p, w.fs0 p = none)
    (hmk : ∀ dr, w.mkdirOk dr = true)
    (hM : M ∈ objs)
    (hnd : (objs.map S3Object.key).Nodup)
    (hns : ∀ o ∈ objs, o.key.data.head? ≠ some '/')
    (hdlM : w.downloadOk M.key = false)
    (hdl : ∀ k, k ≠ M.key → w.downloadOk k = true) :
    (lambda_handler w).1 = ⟨200, .completedBody "Sync completed"
      ((objs.map S3Object.key).filter (fun k => k ≠ M.key)).length 1 w.now
      ((objs.map S3Object.key).filter (fun k => k ≠ M.key))
      ["Error syncing " ++ M.key ++ ": download failed"]⟩ := by
  have hpathnd : (objs.map fun o => downloadLocalPath efs o.key).Nodup := by
    have hmm : (objs.map fun o => downloadLocalPath efs o.key) =
        (objs.map S3Object.key).map (fun k => downloadLocalPath efs k) := by
      rw [List.map_map]
      rfl
    rw [hmm]
    apply List.Nodup.map_on ?_ hnd
    intro x hx y hy hxy
    rcases List.mem_map.mp hx with ⟨ox, hox, rfl⟩
    rcases List.mem_map.mp hy with ⟨oy, hoy, rfl⟩
    exact pyJoin_inj efs ox.key oy.key (hns ox hox) (hns oy hoy) hxy
  have htr := runLoop_fresh w efs hmk objs w.fs0 (fun o _ => hfs _) hpathnd
  have hlists := freshTrace_single_fail w M.key hdlM hdl objs hnd
    (List.mem_map_of_mem S3Object.key hM)
  simp only [lambda_handler, hb, he, hr, hl, hc, htr, hlists.1, hlists.2]
  simp

/-- Concrete world with two objects of which only `"bad.txt"` fails to download. -/
def wFail : World :=
  ⟨some "bucket", some "/mnt/efs", true,
    .ok ⟨some [⟨"a.txt", 5⟩, ⟨"bad.txt", 5⟩], false, none⟩, [],
    fun _ => none, fun _ => true, fun k => k != "bad.txt", fun _ => 10, "ts"⟩

/-- Witness for C2 at the concrete two-object world. -/
theorem single_failure_isolated_witness :
    (⟨"bad.txt", 5⟩ : S3Object) ∈
      [(⟨"a.txt", 5⟩ : S3Object), ⟨"bad.txt", 5⟩] ∧
    wFail.downloadOk "bad.txt" = false ∧
    (lambda_handler wFail).1 = ⟨200, .completedBody "Sync completed"
      ((([⟨"a.txt", 5⟩, ⟨"bad.txt", 5⟩] : List S3Object).map S3Object.key).filter
        (fun k => k ≠ "bad.txt")).length 1 wFail.now
      ((([⟨"a.txt", 5⟩, ⟨"bad.txt", 5⟩] : List S3Object).map S3Object.key).filter
        (fun k => k ≠ "bad.txt"))
      ["Error syncing " ++ "bad.txt" ++ ": download failed"]⟩ :=
  ⟨by decide, rfl,
    single_failure_isolated wFail "bucket" "/mnt/efs"
      ⟨some [⟨"a.txt", 5⟩, ⟨"bad.txt", 5⟩], false, none⟩
      [⟨"a.txt", 5⟩, ⟨"bad.txt", 5⟩] ⟨"bad.txt", 5⟩
      rfl rfl rfl rfl rfl (fun p => rfl) (fun dr => rfl) (by decide) (by decide)
      (by decide) rfl (fun k hk => by simpa [wFail] using hk)⟩

/-- Predicate: an object cannot be downloaded against this filesystem — its
parent directory creation fails, its download fails, or an up-to-date local copy
exists at its path. -/
def Blocked (w : World) (efs : String) (fs : FS) (o : S3Object) : Prop :=
  (dirname (downloadLocalPath efs o.key) ≠ "" ∧
    w.mkdirOk (dirname (downloadLocalPath efs o.key)) = false) ∨
  w.downloadOk o.key = false ∨
  (∃ v, fs (downloadLocalPath efs o.key) = some v ∧ o.lastModified ≤ v)

/-- Helper: a blocked object is never downloaded. -/
theorem blocked_not_downloaded (w : World) (efs : String) (fs : FS)
    (o : S3Object) (h : Blocked w efs fs o) :
    (processObject w efs fs o).1 ≠ .downloaded := by
  rw [processObject_eq]
  split_ifs with h1 h2 h3
  · simp
  · exfalso
    rcases h with h | h | ⟨v, hv, hle⟩
    · exact h1 h
    · simp [h] at h3
    · rw [shouldDownload_some _ _ _ _ hv] at h2
      simp at h2
      omega
  · simp
  · simp

/-- Helper: the per-object step either downloads or leaves the filesystem as is. -/
theorem processObject_dicho (w : World) (efs : String) (fs : FS)
    (o : S3Object) :
    (processObject w efs fs o).1 = .downloaded ∨
    (processObject w efs fs o).2 = fs := by
  rw [processObject_eq]
  split_ifs
  · exact Or.inr rfl
  · exact Or.inl rfl
  · exact Or.inr rfl
  · exact Or.inr rfl

/-- Helper: the per-object step changes a path only to the download timestamp. -/
theorem processObject_fs_point (w : World) (efs : String) (fs : FS)
    (o : S3Object) (p : String) :
    (processObject w efs fs o).2 p = fs p ∨
    (processObject w efs fs o).2 p = some (w.downloadMtime p) := by
  rw [processObject_eq]
  split_ifs
  · exact Or.inl rfl
  · by_cases hp : p = downloadLocalPath efs o.key
    · subst hp
      right
      simp
    · left
      simp [hp]
  · exact Or.inl rfl
  · exact Or.inl rfl

/-- Helper: the loop changes a path only to the download timestamp. -/
theorem runLoop_fs_evolution (w : World) (efs : String) :
    ∀ (objs : List S3Object) (fs : FS) (p : String),
      ((runLoop w efs objs fs).2) p = fs p ∨
      ((runLoop w efs objs fs).2) p = some (w.downloadMtime p) := by
  intro objs
  induction objs with
  | nil =>
    intro fs p
    exact Or.inl rfl
  | cons o rest ih =>
    intro fs p
    simp only [runLoop]
    rcases ih (processObject w efs fs o).2 p with h | h
    · rcases processObject_fs_point w efs fs o p with h2 | h2
      · exact Or.inl (h.trans h2)
      · exact Or.inr (h.trans h2)
    · exact Or.inr h

/-- Helper: blockedness survives any filesystem evolution of the loop, as long
as every download timestamp is at least the object's last-modified time. -/
theorem blocked_evolve (w : World) (efs : String) (o : S3Object)
    (hmt : ∀ p, o.lastModified ≤ w.downloadMtime p) (fs fs' : FS)
    (hev : ∀ p, fs' p = fs p ∨ fs' p = some (w.downloadMtime p))
    (h : Blocked w efs fs o) : Blocked w efs fs' o := by
  rcases h with h | h | ⟨v, hv, hle⟩
  · exact Or.inl h
  · exact Or.inr (Or.inl h)
  · rcases hev (downloadLocalPath efs o.key) with he | he
    · exact Or.inr (Or.inr ⟨v, he.trans hv, hle⟩)
    · exact Or.inr (Or.inr ⟨w.downloadMtime _, he, hmt _⟩)

/-- Helper: after its own processing step, an object is blocked. -/
theorem blocked_after_self (w : World) (efs : String) (fs : FS) (o : S3Object)
    (hmt : ∀ p, o.lastModified ≤ w.downloadMtime p) :
    Blocked w efs ((processObject w efs fs o).2) o := by
  rw [processObject_eq]
  split_ifs with h1 h2 h3
  · exact Or.inl h1
  · right
    right
    refine ⟨w.downloadMtime (downloadLocalPath efs o.key), ?_, hmt _⟩
    simp
  · exact Or.inr (Or.inl (by simpa using h3))
  · right
    right
    cases hv : fs (downloadLocalPath efs o.key) with
    | none => exact absurd (shouldDownload_none _ _ o.lastModified hv) h2
    | some v =>
      refine ⟨v, hv, ?_⟩
      rw [shouldDownload_some _ _ o.lastModified _ hv] at h2
      simp at h2
      omega

/-- Helper: after a full pass, every listed object is blocked against the final
filesystem. -/
theorem runLoop_all_blocked (w : World) (efs : String) :
    ∀ (objs : List S3Object) (fs : FS),
      (∀ o ∈ objs, ∀ p, o.lastModified ≤ w.downloadMtime p) →
      ∀ o ∈ objs, Blocked w efs ((runLoop w efs objs fs).2) o := by
  intro objs
  induction objs with
  | nil =>
    intro fs _ o ho
    cases ho
  | cons o0 rest ih =>
    intro fs hmt o ho
    simp only [runLoop]
    rcases List.mem_cons.mp ho with h | h
    · subst h
      exact blocked_evolve w efs o
        (fun p => hmt o (List.mem_cons_self o rest) p) _ _
        (fun p => runLoop_fs_evolution w efs rest (processObject w efs fs o).2 p)
        (blocked_after_self w efs fs o
          (fun p => hmt o (List.mem_cons_self o rest) p))
    · exact ih (processObject w efs fs o0).2
        (fun o' ho' p => hmt o' (List.mem_cons_of_mem _ ho') p) o h

/-- Helper: a pass over entirely blocked objects downloads nothing. -/
theorem runLoop_no_downloads (w : World) (efs : String) :
    ∀ (objs : List S3Object) (fs : FS),
      (∀ o ∈ objs, Blocked w efs fs o) →
      syncedFiles ((runLoop w efs objs fs).1) = [] := by
  intro objs
  induction objs with
  | nil =>
    intro fs _
    rfl
  | cons o rest ih =>
    intro fs hball
    have hnd := blocked_not_downloaded w efs fs o
      (hball o (List.mem_cons_self o rest))
    have hfs : (processObject w efs fs o).2 = fs := by
      rcases processObject_dicho w efs fs o with h | h
      · exact absurd h hnd
      · exact h
    simp only [runLoop, syncedFiles, List.filterMap_cons]
    cases hoc : (processObject w efs fs o).1 with
    | downloaded => exact absurd hoc hnd
    | skipped =>
      rw [hfs]
      exact ih fs (fun o' ho' => hball o' (List.mem_cons_of_mem _ ho'))
    | errored m =>
      rw [hfs]
      exact ih fs (fun o' ho' => hball o' (List.mem_cons_of_mem _ ho'))

/-- C9: a second run of Download Sync against the unchanged bucket — with the
filesystem the first run left behind, and download timestamps at least every
object's last-modified time — downloads zero files. -/
theorem second_run_no_downloads (w : World) (b efs : String)
    (resp : ListResponse) (objs : List S3Object)
    (hb : w.s3Bucket = some b) (he : w.efsPath = some efs)
    (hr : w.rootMkdirOk = true) (hl : w.listing = .ok resp)
    (hc : resp.contents = some objs)
    (hmt : ∀ o ∈ objs, ∀ p, o.lastModified ≤ w.downloadMtime p) :
    ∃ errs, (lambda_handler { w with fs0 := (lambda_handler w).2 }).1 =
      ⟨200, .completedBody "Sync completed" 0 errs.length w.now [] errs⟩ := by
  have hfs1 : (lambda_handler w).2 = (runLoop w efs objs w.fs0).2 := by
    simp [lambda_handler, hb, he, hr, hl, hc]
  have hblocked : ∀ o ∈ objs, Blocked w efs ((runLoop w efs objs w.fs0).2) o :=
    runLoop_all_blocked w efs objs w.fs0 hmt
  have hrl : runLoop { w with fs0 := (lambda_handler w).2 } = runLoop w := by
    funext efs' objs' fs'
    exact runLoop_capabilities { w with fs0 := (lambda_handler w).2 } w
      rfl rfl rfl efs' objs' fs'
  have hsync : syncedFiles ((runLoop w efs objs ((lambda_handler w).2)).1) = [] := by
    rw [hfs1]
    exact runLoop_no_downloads w efs objs _ hblocked
  have hmain := lambda_handler_completed { w with fs0 := (lambda_handler w).2 }
    b efs resp objs hb he hr hl hc
  rw [hrl] at hmain
  have h1 : (lambda_handler { w with fs0 := (lambda_handler w).2 }).1 =
      ⟨200, .completedBody "Sync completed"
        (syncedFiles ((runLoop w efs objs ((lambda_handler w).2)).1)).length
        (errorList ((runLoop w efs objs ((lambda_handler w).2)).1)).length w.now
        (syncedFiles ((runLoop w efs objs ((lambda_handler w).2)).1))
        (errorList ((runLoop w efs objs ((lambda_handler w).2)).1))⟩ :=
    congrArg Prod.fst hmain
  refine ⟨errorList ((runLoop w efs objs ((lambda_handler w).2)).1), ?_⟩
  rw [h1, hsync]
  simp

/-- Witness for C9 at the concrete one-object world: the second run's downloaded
list is empty. -/
theorem second_run_no_downloads_witness :
    (∀ o ∈ [(⟨"a.txt", 5⟩ : S3Object)], ∀ p,
      o.lastModified ≤ wBase.downloadMtime p) ∧
    ∃ errs, (lambda_handler { wBase with fs0 := (lambda_handler wBase).2 }).1 =
      ⟨200, .completedBody "Sync completed" 0 errs.length wBase.now [] errs⟩ := by
  have hmt : ∀ o ∈ [(⟨"a.txt", 5⟩ : S3Object)], ∀ p,
      o.lastModified ≤ wBase.downloadMtime p := by
    intro o ho p
    rcases List.mem_singleton.mp ho with rfl
    norm_num [wBase]
  exact ⟨hmt, second_run_no_downloads wBase "bucket" "/mnt/efs"
    ⟨some [⟨"a.txt", 5⟩], false, none⟩ [⟨"a.txt", 5⟩]
    rfl rfl rfl rfl rfl hmt⟩

/-- Normal-form path segment: nonempty, slash-free, and not a dot component. -/
abbrev NormalPiece (p : Chars) : Prop :=
  p ≠ [] ∧ '/' ∉ p ∧ p ≠ ['.'] ∧ p ≠ ['.', '.']

/-- Helper: head of an append with nonempty left part. -/
theorem head?_append_left (l₁ l₂ : Chars) (h : l₁ ≠ []) :
    (l₁ ++ l₂).head? = l₁.head? := by
  cases l₁ with
  | nil => exact absurd rfl h
  | cons c t => rfl

/-- Helper: last element of a cons with nonempty tail. -/
theorem getLast?_cons_ne (x : Char) (l : Chars) (h : l ≠ []) :
    (x :: l).getLast? = l.getLast? := by
  cases l with
  | nil => exact absurd rfl h
  | cons c t => exact List.getLast?_cons_cons

/-- Helper: last element of an append with nonempty right part. -/
theorem getLast?_append_ne (l₁ l₂ : Chars) (h : l₂ ≠ []) :
    (l₁ ++ l₂).getLast? = l₂.getLast? := by
  induction l₁ with
  | nil => rfl
  | cons c t ih =>
    rw [List.cons_append, getLast?_cons_ne c (t ++ l₂)
      (by simp [List.append_eq_nil]; rintro - rfl; exact h rfl), ih]

/-- Helper: membership from `head?`. -/
theorem head?_mem_of (l : Chars) (c : Char) (h : l.head? = some c) : c ∈ l := by
  cases l with
  | nil => cases h
  | cons x t =>
    rw [List.head?_cons] at h
    injection h with h
    exact h ▸ List.mem_cons_self x t

/-- Helper: membership from `getLast?`. -/
theorem getLast?_mem_of : ∀ (l : Chars) (c : Char), l.getLast? = some c → c ∈ l := by
  intro l
  induction l with
  | nil =>
    intro c h
    cases h
  | cons x t ih =>
    intro c h
    cases t with
    | nil =>
      injection h with h
      exact h ▸ List.mem_cons_self x []
    | cons y t' =>
      rw [List.getLast?_cons_cons] at h
      exact List.mem_cons_of_mem _ (ih c h)

/-- Helper: `splitChars` never returns the empty list. -/
theorem splitChars_ne_nil : ∀ l : Chars, splitChars l ≠ [] := by
  intro l
  induction l with
  | nil => simp [splitChars]
  | cons c t ih =>
    unfold splitChars
    by_cases hc : c = '/'
    · simp [hc]
    · rw [if_neg hc]
      cases hs : splitChars t with
      | nil => simp
      | cons p ps => simp

/-- Helper: equation for `splitChars` at a non-slash head. -/
theorem splitChars_cons_ne (c : Char) (cs : Chars) (hc : c ≠ '/') :
    splitChars (c :: cs) =
      match splitChars cs with
      | [] => [[c]]
      | p :: ps => (c :: p) :: ps := by
  conv_lhs => unfold splitChars
  rw [if_neg hc]

/-- Helper: equation for `splitChars` at a slash head. -/
theorem splitChars_slash_cons (cs : Chars) :
    splitChars ('/' :: cs) = [] :: splitChars cs := by
  conv_lhs => unfold splitChars
  rw [if_pos rfl]

/-- Helper: splitting a slash-free piece yields the single piece. -/
theorem splitChars_no_slash : ∀ p : Chars, '/' ∉ p → splitChars p = [p] := by
  intro p
  induction p with
  | nil => intro _; rfl
  | cons c t ih =>
    intro h
    have hc : c ≠ '/' := fun hcon => h (hcon ▸ List.mem_cons_self c t)
    rw [splitChars_cons_ne c t hc,
      ih (fun hcon => h (List.mem_cons_of_mem _ hcon))]

/-- Helper: splitting distributes over a slash inserted after a slash-free
piece. -/
theorem splitChars_append_slash :
    ∀ (p rest : Chars), '/' ∉ p →
      splitChars (p ++ '/' :: rest) = p :: splitChars rest := by
  intro p
  induction p with
  | nil =>
    intro rest _
    exact splitChars_slash_cons rest
  | cons c t ih =>
    intro rest h
    have hc : c ≠ '/' := fun hcon => h (hcon ▸ List.mem_cons_self c t)
    rw [List.cons_append, splitChars_cons_ne c _ hc,
      ih rest (fun hcon => h (List.mem_cons_of_mem _ hcon))]

/-- Helper: `joinSlash` of a cons-cons unfolds to an append. -/
theorem joinSlash_cons_cons (p q : Chars) (ps : List Chars) :
    joinSlash (p :: q :: ps) = p ++ '/' :: joinSlash (q :: ps) := rfl

/-- Helper: `joinSlash` of a list with a nonempty head is nonempty. -/
theorem joinSlash_ne_nil (p : Chars) (ps : List Chars) (h : p ≠ []) :
    joinSlash (p :: ps) ≠ [] := by
  cases ps with
  | nil => exact h
  | cons q ps' =>
    rw [joinSlash_cons_cons]
    intro hcon
    rcases List.append_eq_nil.mp hcon with ⟨-, h2⟩
    exact List.noConfusion h2

/-- Helper: head of `joinSlash` is the head of the first piece. -/
theorem joinSlash_head? (p : Chars) (ps : List Chars) (h : p ≠ []) :
    (joinSlash (p :: ps)).head? = p.head? := by
  cases ps with
  | nil => rfl
  | cons q ps' =>
    rw [joinSlash_cons_cons]
    exact head?_append_left p _ h

/-- Helper: `joinSlash` distributes over append of nonempty lists. -/
theorem joinSlash_append :
    ∀ (xs ys : List Chars), xs ≠ [] → ys ≠ [] →
      joinSlash (xs ++ ys) = joinSlash xs ++ '/' :: joinSlash ys := by
  intro xs
  induction xs with
  | nil =>
    intro ys h _
    exact absurd rfl h
  | cons x xs' ih =>
    intro ys _ hy
    cases xs' with
    | nil =>
      cases ys with
      | nil => exact absurd rfl hy
      | cons y ys' =>
        rw [List.singleton_append, joinSlash_cons_cons]
        rfl
    | cons x2 xs'' =>
      have h1 : (x :: x2 :: xs'') ++ ys = x :: ((x2 :: xs'') ++ ys) := rfl
      have h2 : (x2 :: xs'') ++ ys = x2 :: (xs'' ++ ys) := rfl
      rw [h1, show joinSlash (x :: ((x2 :: xs'') ++ ys)) =
        x ++ '/' :: joinSlash ((x2 :: xs'') ++ ys) from by rw [h2]; rfl]
      rw [ih ys (by simp) hy, joinSlash_cons_cons]
      simp [List.append_assoc]

/-- Helper: splitting inverts joining for nonempty slash-free pieces. -/
theorem splitChars_joinSlash :
    ∀ ps : List Chars, ps ≠ [] → (∀ p ∈ ps, '/' ∉ p) →
      splitChars (joinSlash ps) = ps := by
  intro ps
  induction ps with
  | nil =>
    intro h _
    exact absurd rfl h
  | cons p ps' ih =>
    intro _ hall
    cases ps' with
    | nil => exact splitChars_no_slash p (hall p (List.mem_cons_self p []))
    | cons q ps'' =>
      rw [joinSlash_cons_cons,
        splitChars_append_slash p _ (hall p (List.mem_cons_self p _)),
        ih (by simp) (fun r hr => hall r (List.mem_cons_of_mem _ hr))]

/-- Helper: characters of a join are slashes or characters of some piece. -/
theorem mem_joinSlash :
    ∀ (ps : List Chars) (c : Char), c ∈ joinSlash ps →
      c = '/' ∨ ∃ p ∈ ps, c ∈ p := by
  intro ps
  induction ps with
  | nil =>
    intro c hc
    cases hc
  | cons p ps' ih =>
    intro c hc
    cases ps' with
    | nil => exact Or.inr ⟨p, List.mem_cons_self p [], hc⟩
    | cons q ps'' =>
      rw [joinSlash_cons_cons] at hc
      rcases List.mem_append.mp hc with h | h
      · exact Or.inr ⟨p, List.mem_cons_self p _, h⟩
      · rcases List.mem_cons.mp h with h | h
        · exact Or.inl h
        · rcases ih c h with h2 | ⟨r, hr, hcr⟩
          · exact Or.inl h2
          · exact Or.inr ⟨r, List.mem_cons_of_mem _ hr, hcr⟩

/-- Helper: last character of a join of nonempty slash-free pieces is not a
slash. -/
theorem joinSlash_getLast_ne_slash :
    ∀ ps : List Chars, ps ≠ [] → (∀ p ∈ ps, p ≠ [] ∧ '/' ∉ p) →
      ∀ c, (joinSlash ps).getLast? = some c → c ≠ '/' := by
  intro ps
  induction ps with
  | nil =>
    intro h
    exact absurd rfl h
  | cons p ps' ih =>
    intro _ hall c hc
    cases ps' with
    | nil =>
      intro hcon
      exact (hall p (List.mem_cons_self p [])).2
        (hcon ▸ getLast?_mem_of p c hc)
    | cons q ps'' =>
      rw [joinSlash_cons_cons, getLast?_append_ne _ _ (by simp),
        getLast?_cons_ne _ _ (joinSlash_ne_nil q ps''
          (hall q (List.mem_cons_of_mem _ (List.mem_cons_self q ps''))).1)] at hc
      exact ih (by simp) (fun r hr => hall r (List.mem_cons_of_mem _ hr)) c hc

/-- Helper: single-slash detection on a normal absolute path. -/
theorem initialSlashes_one (c : Char) (t : Chars) (hc : c ≠ '/') :
    initialSlashes ('/' :: c :: t) = 1 := by
  have h1 : ('/' :: c :: t).head? = some '/' := rfl
  have h2 : ¬ (('/' :: c :: t).tail.head? = some '/' ∧
      ('/' :: c :: t).tail.tail.head? ≠ some '/') := by
    rintro ⟨hcon, -⟩
    rw [List.tail_cons, List.head?_cons] at hcon
    injection hcon with hcon
    exact hc hcon
  unfold initialSlashes
  rw [if_pos h1, if_neg h2]

/-- Helper: the normalization loop keeps exactly the nonempty components when no
dot components occur. -/
theorem normLoop_no_dots (b : Bool) :
    ∀ (P acc : List Chars), (∀ p ∈ P, p ≠ ['.'] ∧ p ≠ ['.', '.']) →
      normLoop b acc P = acc ++ P.filter (fun p => p ≠ []) := by
  intro P
  induction P with
  | nil =>
    intro acc _
    simp [normLoop]
  | cons comp rest ih =>
    intro acc hall
    have hdot := hall comp (List.mem_cons_self comp rest)
    have hrest : ∀ p ∈ rest, p ≠ ['.'] ∧ p ≠ ['.', '.'] :=
      fun p hp => hall p (List.mem_cons_of_mem _ hp)
    by_cases hc : comp = []
    · unfold normLoop
      rw [if_pos (Or.inl hc), ih acc hrest, List.filter_cons,
        if_neg (by simp [hc])]
    · unfold normLoop
      rw [if_neg (by rintro (h | h); exacts [hc h, hdot.1 h]),
        if_pos (Or.inl hdot.2), ih (acc ++ [comp]) hrest, List.filter_cons,
        if_pos (by simpa using hc)]
      simp

/-- Helper: a normal absolute path is a fixed point of `normpathChars`. -/
theorem normpathChars_fix (L : List Chars) (hL : ∀ p ∈ L, NormalPiece p) :
    normpathChars ('/' :: joinSlash L) = '/' :: joinSlash L := by
  cases L with
  | nil => decide
  | cons p L' =>
    have hp := hL p (List.mem_cons_self p L')
    have hjoin_ne : joinSlash (p :: L') ≠ [] := joinSlash_ne_nil p L' hp.1
    obtain ⟨c, t, hct⟩ := List.exists_cons_of_ne_nil hjoin_ne
    have hc : c ≠ '/' := by
      have hh : (joinSlash (p :: L')).head? = p.head? := joinSlash_head? p L' hp.1
      rw [hct, List.head?_cons] at hh
      intro hcon
      subst hcon
      exact hp.2.1 (head?_mem_of p '/' hh.symm)
    have hsl : initialSlashes ('/' :: joinSlash (p :: L')) = 1 := by
      rw [hct]
      exact initialSlashes_one c t hc
    have hsplit : splitChars ('/' :: joinSlash (p :: L')) = [] :: (p :: L') := by
      rw [splitChars_slash_cons,
        splitChars_joinSlash (p :: L') (by simp) (fun q hq => (hL q hq).2.1)]
    have hfilter : (([] : Chars) :: p :: L').filter (fun q => q ≠ []) =
        p :: L' := by
      rw [List.filter_cons, if_neg (by simp)]
      exact List.filter_eq_self.mpr (fun q hq => decide_eq_true ((hL q hq).1))
    have hloop : normLoop ((1 : Nat) != 0) [] ([] :: p :: L') = p :: L' := by
      rw [normLoop_no_dots ((1 : Nat) != 0) ([] :: p :: L') [] ?_,
        List.nil_append, hfilter]
      intro q hq
      rcases List.mem_cons.mp hq with h | h
      · subst h
        exact ⟨by simp, by simp⟩
      · exact ⟨(hL q h).2.2.1, (hL q h).2.2.2⟩
    simp only [normpathChars]
    rw [if_neg (by simp), hsl, hsplit, hloop]
    rw [if_neg (by simp)]
    simp

/-- Helper: splitting then filtering a normal absolute path recovers its
components. -/
theorem splitFilter_abs (L : List Chars) (hL : ∀ p ∈ L, NormalPiece p) :
    (splitChars ('/' :: joinSlash L)).filter (fun p => p ≠ []) = L := by
  cases L with
  | nil => decide
  | cons p L' =>
    rw [splitChars_slash_cons,
      splitChars_joinSlash (p :: L') (by simp) (fun q hq => (hL q hq).2.1)]
    rw [List.filter_cons, if_neg (by simp)]
    exact List.filter_eq_self.mpr (fun q hq => decide_eq_true ((hL q hq).1))

/-- Helper: common-prefix length of a list against itself extended. -/
theorem commonPrefixLenC_append :
    ∀ l m : List Chars, commonPrefixLenC l (l ++ m) = l.length := by
  intro l
  induction l with
  | nil =>
    intro m
    cases m with
    | nil => rfl
    | cons x t => rfl
  | cons a t ih =>
    intro m
    show (if a = a then commonPrefixLenC t (t ++ m) + 1 else 0) = t.length + 1
    rw [if_pos rfl, ih]

/-- Helper: joining a normal absolute root with a normal relative key yields the
normal absolute path whose components are the concatenation. -/
theorem pyJoinChars_normal (R Kp : List Chars)
    (hR : ∀ p ∈ R, NormalPiece p) (hKp : Kp ≠ [])
    (hK : ∀ p ∈ Kp, NormalPiece p) :
    pyJoinChars ('/' :: joinSlash R) (joinSlash Kp) =
      '/' :: joinSlash (R ++ Kp) := by
  obtain ⟨k, Kp', rfl⟩ := List.exists_cons_of_ne_nil hKp
  have hkp := hK k (List.mem_cons_self k Kp')
  have hkh : (joinSlash (k :: Kp')).head? ≠ some '/' := by
    rw [joinSlash_head? k Kp' hkp.1]
    intro hcon
    exact hkp.2.1 (head?_mem_of k '/' hcon)
  unfold pyJoinChars
  rw [if_neg hkh]
  cases R with
  | nil =>
    have hcond : '/' :: joinSlash ([] : List Chars) = [] ∨
        ('/' :: joinSlash ([] : List Chars)).getLast? = some '/' := Or.inr rfl
    rw [if_pos hcond]
    rfl
  | cons r R' =>
    have hr := hR r (List.mem_cons_self r R')
    have hg : ('/' :: joinSlash (r :: R')).getLast? ≠ some '/' := by
      rw [getLast?_cons_ne '/' _ (joinSlash_ne_nil r R' hr.1)]
      intro hcon
      exact joinSlash_getLast_ne_slash (r :: R') (by simp)
        (fun q hq => ⟨(hR q hq).1, (hR q hq).2.1⟩) '/' hcon rfl
    rw [if_neg (by rintro (h | h); exacts [List.noConfusion h, hg h])]
    rw [show ('/' :: joinSlash (r :: R')) ++ '/' :: joinSlash (k :: Kp') =
      '/' :: (joinSlash (r :: R') ++ '/' :: joinSlash (k :: Kp')) from rfl]
    rw [← joinSlash_append (r :: R') (k :: Kp') (by simp) (by simp)]

/-- Helper: `relpath` of a normal absolute path against its normal absolute root
recovers the joined key components. -/
theorem relpathChars_roundtrip (cwd : Chars) (R Kp : List Chars)
    (hR : ∀ p ∈ R, NormalPiece p) (hKp : Kp ≠ [])
    (hK : ∀ p ∈ Kp, NormalPiece p) :
    relpathChars cwd ('/' :: joinSlash (R ++ Kp)) ('/' :: joinSlash R) =
      joinSlash Kp := by
  have hRK : ∀ p ∈ R ++ Kp, NormalPiece p := by
    intro p hp
    rcases List.mem_append.mp hp with h | h
    · exact hR p h
    · exact hK p h
  have habs1 : abspathChars cwd ('/' :: joinSlash R) = '/' :: joinSlash R := by
    unfold abspathChars
    rw [if_pos (show ('/' :: joinSlash R).head? = some '/' from rfl)]
    exact normpathChars_fix R hR
  have habs2 : abspathChars cwd ('/' :: joinSlash (R ++ Kp)) =
      '/' :: joinSlash (R ++ Kp) := by
    unfold abspathChars
    rw [if_pos (show ('/' :: joinSlash (R ++ Kp)).head? = some '/' from rfl)]
    exact normpathChars_fix (R ++ Kp) hRK
  simp only [relpathChars]
  rw [habs1, habs2, splitFilter_abs R hR, splitFilter_abs (R ++ Kp) hRK,
    commonPrefixLenC_append, Nat.sub_self, List.replicate_zero,
    List.nil_append, List.drop_left, if_neg hKp]

/-- Helper: the backslash replacement is the identity on backslash-free text. -/
theorem replace_map_id (l : Chars) (h : ∀ c ∈ l, c ≠ '\\') :
    (l.map fun c => if c = '\\' then '/' else c) = l := by
  induction l with
  | nil => rfl
  | cons c t ih =>
    rw [List.map_cons, if_neg (h c (List.mem_cons_self c t)),
      ih (fun c' hc' => h c' (List.mem_cons_of_mem _ hc'))]

/-- C6 amended: for roots and keys in normal form — absolute normalized root,
key made of nonempty slash-separated segments none of which is `.` or `..` and
containing no backslashes — the Upload Sync key derivation applied to the
Download Sync local path recovers exactly the key. -/
theorem roundtrip_normal (cwd root key : String) (R Kp : List Chars)
    (hroot : root.data = '/' :: joinSlash R)
    (hR : ∀ p ∈ R, NormalPiece p)
    (hkey : key.data = joinSlash Kp)
    (hKp : Kp ≠ [])
    (hK : ∀ p ∈ Kp, NormalPiece p)
    (hKb : ∀ p ∈ Kp, '\\' ∉ p) :
    s3KeyOf cwd root (downloadLocalPath root key) = key := by
  have hpath : (downloadLocalPath root key).data = '/' :: joinSlash (R ++ Kp) := by
    show pyJoinChars root.data key.data = _
    rw [hroot, hkey]
    exact pyJoinChars_normal R Kp hR hKp hK
  have hrel : relpathChars cwd.data (downloadLocalPath root key).data root.data
      = joinSlash Kp := by
    rw [hpath, hroot]
    exact relpathChars_roundtrip cwd.data R Kp hR hKp hK
  show replaceBackslash (relpath cwd (downloadLocalPath root key) root) = key
  unfold replaceBackslash relpath
  rw [show (String.mk (relpathChars cwd.data (downloadLocalPath root key).data
    root.data)).data = relpathChars cwd.data (downloadLocalPath root key).data
    root.data from rfl]
  rw [hrel, replace_map_id (joinSlash Kp) ?_]
  · rw [← hkey]
  · intro c hc
    rcases mem_joinSlash Kp c hc with h | ⟨p, hp, hcp⟩
    · subst h
      decide
    · exact fun hcon => hKb p hp (hcon ▸ hcp)

/-- Counterexample to C6 as stated: the key `"a//b.txt"` contains forward-slash
separators, yet the round trip yields `"a/b.txt"`, a different key, because
`os.path.relpath` normalizes the doubled slash away. -/
theorem roundtrip_counterexample :
    '/' ∈ ("a//b.txt" : String).data ∧
    s3KeyOf "/" "/mnt/efs" (downloadLocalPath "/mnt/efs" "a//b.txt") =
      "a/b.txt" ∧
    "a/b.txt" ≠ "a//b.txt" := by
  refine ⟨by decide, by decide, by decide⟩

/-- Witness for the amended C6 at a concrete normal root and key. -/
theorem roundtrip_normal_witness :
    ("/mnt/efs" : String).data =
      '/' :: joinSlash [['m', 'n', 't'], ['e', 'f', 's']] ∧
    (∀ p ∈ [['m', 'n', 't'], ['e', 'f', 's']], NormalPiece p) ∧
    ("a/b.txt" : String).data = joinSlash [['a'], ['b', '.', 't', 'x', 't']] ∧
    ([['a'], ['b', '.', 't', 'x', 't']] : List Chars) ≠ [] ∧
    (∀ p ∈ [['a'], ['b', '.', 't', 'x', 't']], NormalPiece p) ∧
    (∀ p ∈ [['a'], ['b', '.', 't', 'x', 't']], '\\' ∉ p) ∧
    s3KeyOf "/" "/mnt/efs" (downloadLocalPath "/mnt/efs" "a/b.txt") =
      "a/b.txt" :=
  ⟨by decide, by decide, by decide, by decide, by decide, by decide,
    roundtrip_normal "/" "/mnt/efs" "a/b.txt"
      [['m', 'n', 't'], ['e', 'f', 's']] [['a'], ['b', '.', 't', 'x', 't']]
      (by decide) (by decide) (by decide) (by decide) (by decide) (by decide)⟩

end SyncSpec
